import Mathlib

/-!
Verification of the data-link layer simulation in src/datalink.py.

Bit strings of 0 and 1 characters are modelled as List Bool (true = bit 1),
payload characters as natural-number code points, and the dictionary of
buffered frames as an association list with dictionary semantics.  The
random channel is replaced by an oracle argument that ranges over every
outcome the Python channel can produce.  Python while loops and the builtin
binary formatting are modelled by fuel-indexed structural recursions whose
fuel is provably sufficient.
-/

namespace Datalink

/-- One pass of the inner loop of the CRC division in generate_crc and
check_crc: for j in range(len(poly)): temp[i + j] = temp[i + j] xor poly[j].
Callers only invoke this with i + poly.length within bounds, where the
take/zip/drop form below coincides with the Python in-place update. -/
def xorAt (temp : List Bool) (i : Nat) (poly : List Bool) : List Bool :=
  temp.take i ++ List.zipWith Bool.xor ((temp.drop i).take poly.length) poly
    ++ temp.drop (i + poly.length)

/-- One iteration of the outer division loop: if temp[i] == 1, xor the
polynomial into temp starting at index i. -/
def crcStep (poly : List Bool) (temp : List Bool) (i : Nat) : List Bool :=
  if temp.getD i false then xorAt temp i poly else temp

/-- The outer division loop: for i in range(m) over the working bit list. -/
def runDivision (poly temp : List Bool) (m : Nat) : List Bool :=
  (List.range m).foldl (crcStep poly) temp

/-- generate_crc from src/datalink.py: append len(poly) - 1 zero bits, run
the division loop over the first len(data) positions, and return the tail
beyond the data, which is the check value. -/
def generate_crc (data_bits polynomial_bits : List Bool) : List Bool :=
  (runDivision polynomial_bits
      (data_bits ++ List.replicate (polynomial_bits.length - 1) false)
      data_bits.length).drop data_bits.length

/-- check_crc from src/datalink.py: run the division loop over the received
bits for len(received) - n + 1 steps and test whether the final remainder,
the last n - 1 positions, is all zero.  Python evaluates int(remainder) and
raises ValueError when the remainder string is empty, which is modelled by
the none result; the branch for a negative Python slice start mirrors the
clamping of received[L - n + 1 :] when n exceeds L + 1. -/
def check_crc (received polynomial_bits : List Bool) : Option Bool :=
  let L := received.length
  let n := polynomial_bits.length
  let temp := runDivision polynomial_bits received (L + 1 - n)
  let start := if n ≤ L + 1 then L + 1 - n else 2 * L + 1 - n
  let remainder := temp.drop start
  if remainder.isEmpty then none else some (remainder.all (fun b => b == false))

/-- The fixed generator pattern 1011 used by every DataLinkLayerNode. -/
def defaultPolynomial : List Bool := [true, false, true, true]

theorem xorAt_nil (i : Nat) (q : List Bool) : xorAt [] i q = [] := by
  simp [xorAt]

theorem xorAt_cons_succ (b : Bool) (t : List Bool) (i : Nat) (q : List Bool) :
    xorAt (b :: t) (i + 1) q = b :: xorAt t i q := by
  have h : i + 1 + q.length = (i + q.length) + 1 := by omega
  simp [xorAt, h]

theorem xorAt_zero_nil (t : List Bool) : xorAt t 0 [] = t := by
  simp [xorAt]

theorem xorAt_zero_cons (b : Bool) (t : List Bool) (q0 : Bool) (q : List Bool) :
    xorAt (b :: t) 0 (q0 :: q) = Bool.xor b q0 :: xorAt t 0 q := by
  simp [xorAt]

theorem xorAt_length (t : List Bool) (i : Nat) (q : List Bool) :
    (xorAt t i q).length = t.length := by
  simp [xorAt]
  omega

theorem xorAt_zero_getD (t q : List Bool) (k : Nat) :
    (xorAt t 0 q).getD k false
      = Bool.xor (t.getD k false) (if k < t.length then q.getD k false else false) := by
  induction t generalizing q k with
  | nil => simp [xorAt_nil, List.getD]
  | cons b t ih =>
    cases q with
    | nil =>
      simp [xorAt_zero_nil, List.getD]
    | cons q0 q =>
      cases k with
      | zero => simp [xorAt_zero_cons, List.getD_cons_zero]
      | succ k =>
        simp only [xorAt_zero_cons, List.getD_cons_succ, ih, List.length_cons]
        have h : k + 1 < t.length + 1 ↔ k < t.length := by omega
        rw [if_congr h rfl rfl]

theorem crcStep_nil (p : List Bool) (i : Nat) : crcStep p [] i = [] := by
  simp [crcStep, List.getD]

theorem crcStep_cons_succ (p : List Bool) (b : Bool) (t : List Bool) (i : Nat) :
    crcStep p (b :: t) (i + 1) = b :: crcStep p t i := by
  unfold crcStep
  rw [List.getD_cons_succ]
  split <;> simp [xorAt_cons_succ]

theorem crcStep_length (p t : List Bool) (i : Nat) :
    (crcStep p t i).length = t.length := by
  unfold crcStep
  split
  · exact xorAt_length t i p
  · rfl

theorem foldl_crcStep_nil (p : List Bool) (L : List Nat) :
    List.foldl (crcStep p) [] L = [] := by
  induction L with
  | nil => rfl
  | cons x L ih => simp [crcStep_nil, ih]

theorem foldl_crcStep_succ (p : List Bool) (L : List Nat) :
    ∀ (b : Bool) (t : List Bool),
      List.foldl (crcStep p) (b :: t) (L.map Nat.succ) = b :: List.foldl (crcStep p) t L := by
  induction L with
  | nil => intro b t; rfl
  | cons x L ih =>
    intro b t
    simp only [List.map_cons, List.foldl_cons, crcStep_cons_succ]
    exact ih b (crcStep p t x)

theorem foldl_crcStep_length (p : List Bool) (L : List Nat) :
    ∀ t : List Bool, (List.foldl (crcStep p) t L).length = t.length := by
  induction L with
  | nil => intro t; rfl
  | cons x L ih =>
    intro t
    simp only [List.foldl_cons, ih, crcStep_length]

theorem runDivision_zero (p t : List Bool) : runDivision p t 0 = t := rfl

theorem runDivision_nil (p : List Bool) (m : Nat) : runDivision p [] m = [] :=
  foldl_crcStep_nil p (List.range m)

theorem runDivision_length (p t : List Bool) (m : Nat) :
    (runDivision p t m).length = t.length :=
  foldl_crcStep_length p (List.range m) t

theorem runDivision_cons (p : List Bool) (b : Bool) (t : List Bool) (m : Nat) :
    runDivision p (b :: t) (m + 1)
      = (if b then Bool.xor b (p.headD false) else b)
        :: runDivision p (if b then xorAt t 0 p.tail else t) m := by
  unfold runDivision
  rw [List.range_succ_eq_map, List.foldl_cons]
  have hstep : crcStep p (b :: t) 0
      = (if b then Bool.xor b (p.headD false) else b) :: (if b then xorAt t 0 p.tail else t) := by
    unfold crcStep
    rw [List.getD_cons_zero]
    cases b with
    | false => simp
    | true =>
      cases p with
      | nil => simp [xorAt_zero_nil]
      | cons p0 p => simp [xorAt_zero_cons]
  rw [hstep, foldl_crcStep_succ]

theorem generate_crc_length (d p : List Bool) :
    (generate_crc d p).length = p.length - 1 := by
  unfold generate_crc
  rw [List.length_drop, runDivision_length]
  simp

theorem getD_drop (l : List Bool) (m k : Nat) :
    (l.drop m).getD k false = l.getD (m + k) false := by
  induction m generalizing l with
  | zero => simp
  | succ m ih =>
    cases l with
    | nil => simp [List.getD]
    | cons b t =>
      rw [List.drop_succ_cons, ih]
      have h : m + 1 + k = (m + k) + 1 := by omega
      rw [h, List.getD_cons_succ]

theorem getD_append_left (l l' : List Bool) (k : Nat) (h : k < l.length) :
    (l ++ l').getD k false = l.getD k false := by
  induction l generalizing k with
  | nil => simp at h
  | cons b t ih =>
    cases k with
    | zero => simp
    | succ k =>
      simp only [List.cons_append, List.getD_cons_succ]
      exact ih k (by simpa using Nat.lt_of_succ_lt_succ h)

theorem getD_append_right (l l' : List Bool) (k : Nat) :
    (l ++ l').getD (l.length + k) false = l'.getD k false := by
  induction l with
  | nil => simp
  | cons b t ih =>
    have h : t.length + 1 + k = (t.length + k) + 1 := by omega
    simp only [List.cons_append, List.length_cons, h, List.getD_cons_succ]
    exact ih

theorem getD_replicate_false (m k : Nat) :
    (List.replicate m false).getD k false = false := by
  induction m generalizing k with
  | zero => simp [List.getD]
  | succ m ih =>
    cases k with
    | zero => simp [List.replicate_succ]
    | succ k => simp only [List.replicate_succ, List.getD_cons_succ]; exact ih _

theorem all_eq_true_of_getD (l : List Bool)
    (h : ∀ k, k < l.length → l.getD k false = false) :
    l.all (fun b => b == false) = true := by
  induction l with
  | nil => rfl
  | cons b t ih =>
    have h0 := h 0 (by simp)
    rw [List.getD_cons_zero] at h0
    subst h0
    simp only [List.all_cons, Bool.and_eq_true, beq_self_eq_true, true_and]
    apply ih
    intro k hk
    have hk' := h (k + 1) (by simpa using Nat.succ_lt_succ hk)
    rwa [List.getD_cons_succ] at hk'

theorem bool_xor_cancel (a b x : Bool) :
    Bool.xor (Bool.xor a x) (Bool.xor b x) = Bool.xor a b := by
  cases a <;> cases b <;> cases x <;> rfl

theorem bool_xor_eq_left (a r : Bool) (h : Bool.xor a r = a) : r = false := by
  cases a <;> cases r <;> simp_all

/-- Two parallel runs of the division loop that agree on the positions the
loop scans perform exactly the same xor operations: the scanned prefixes of
their outputs agree, and the xor difference of the tails is unchanged. -/
theorem runDivision_parallel (p : List Bool) :
    ∀ (m : Nat) (t u : List Bool), t.length = u.length →
      (∀ k, k < m → t.getD k false = u.getD k false) →
      (∀ k, k < m →
          (runDivision p t m).getD k false = (runDivision p u m).getD k false) ∧
      (∀ k, Bool.xor ((runDivision p t m).getD (m + k) false)
              ((runDivision p u m).getD (m + k) false)
          = Bool.xor (t.getD (m + k) false) (u.getD (m + k) false)) := by
  intro m
  induction m with
  | zero =>
    intro t u _ _
    refine ⟨fun k hk => absurd hk (Nat.not_lt_zero k), fun k => ?_⟩
    simp [runDivision_zero]
  | succ m ih =>
    intro t u hlen hpre
    cases t with
    | nil =>
      cases u with
      | nil =>
        refine ⟨fun k _ => rfl, fun k => ?_⟩
        simp [runDivision_nil]
      | cons c u' => simp at hlen
    | cons b t' =>
      cases u with
      | nil => simp at hlen
      | cons c u' =>
        have hb : b = c := by
          have h0 := hpre 0 (Nat.succ_pos m)
          simpa using h0
        subst hb
        have hlen' : t'.length = u'.length := by simpa using hlen
        rw [runDivision_cons, runDivision_cons]
        have hT : (if b then xorAt t' 0 p.tail else t').length
            = (if b then xorAt u' 0 p.tail else u').length := by
          cases b <;> simp [xorAt_length, hlen']
        have hpre' : ∀ k, k < m →
            (if b then xorAt t' 0 p.tail else t').getD k false
              = (if b then xorAt u' 0 p.tail else u').getD k false := by
          intro k hk
          have ht'u' : t'.getD k false = u'.getD k false := by
            have := hpre (k + 1) (Nat.succ_lt_succ hk)
            simpa using this
          cases b with
          | false => simpa using ht'u'
          | true =>
            simp only [if_pos, xorAt_zero_getD, ht'u', hlen']
        obtain ⟨ih1, ih2⟩ := ih _ _ hT hpre'
        constructor
        · intro k hk
          cases k with
          | zero => simp
          | succ k =>
            simp only [List.getD_cons_succ]
            exact ih1 k (Nat.lt_of_succ_lt_succ hk)
        · intro k
          have hidx : m + 1 + k = (m + k) + 1 := by omega
          rw [hidx]
          simp only [List.getD_cons_succ]
          rw [ih2 k]
          cases b with
          | false => simp
          | true =>
            simp only [if_pos, xorAt_zero_getD, hlen']
            exact bool_xor_cancel _ _ _

/-- The CRC round-trip law: dividing data with its appended check value by
the same generator leaves the all-zero remainder, for any generator of at
least two bits. -/
theorem crc_check_roundtrip (p data : List Bool) (hp : 2 ≤ p.length) :
    check_crc (data ++ generate_crc data p) p = some true := by
  have hcl : (generate_crc data p).length = p.length - 1 := generate_crc_length data p
  have hL : (data ++ generate_crc data p).length = data.length + (p.length - 1) := by
    simp [hcl]
  have hsteps : (data ++ generate_crc data p).length + 1 - p.length = data.length := by
    omega
  have hcond : p.length ≤ (data ++ generate_crc data p).length + 1 := by omega
  -- pointwise: every remainder position of the check run is false
  have key : ∀ k, (runDivision p (data ++ generate_crc data p) data.length).getD
      (data.length + k) false = false := by
    intro k
    have hlen : (data ++ List.replicate (p.length - 1) false).length
        = (data ++ generate_crc data p).length := by
      simp [hcl]
    have hpre : ∀ j, j < data.length →
        (data ++ List.replicate (p.length - 1) false).getD j false
          = (data ++ generate_crc data p).getD j false := by
      intro j hj
      rw [getD_append_left _ _ _ hj, getD_append_left _ _ _ hj]
    have ih2 := (runDivision_parallel p data.length _ _ hlen hpre).2 k
    have htv : (data ++ List.replicate (p.length - 1) false).getD
        (data.length + k) false = false := by
      rw [getD_append_right, getD_replicate_false]
    have huv : (data ++ generate_crc data p).getD (data.length + k) false
        = (generate_crc data p).getD k false := getD_append_right _ _ _
    have hrt : (runDivision p (data ++ List.replicate (p.length - 1) false)
        data.length).getD (data.length + k) false
          = (generate_crc data p).getD k false := by
      rw [← getD_drop]
      rfl
    rw [htv, huv, hrt, Bool.false_xor] at ih2
    exact bool_xor_eq_left _ _ ih2
  have hrunlen : (runDivision p (data ++ generate_crc data p) data.length).length
      = data.length + (p.length - 1) := by
    rw [runDivision_length, hL]
  simp only [check_crc, hsteps, if_pos hcond]
  have hremlen : ((runDivision p (data ++ generate_crc data p) data.length).drop
      data.length).length = p.length - 1 := by
    rw [List.length_drop, hrunlen]
    omega
  have hne : ((runDivision p (data ++ generate_crc data p) data.length).drop
      data.length).isEmpty = false := by
    rw [List.isEmpty_eq_false_iff_exists_mem]
    have : 0 < ((runDivision p (data ++ generate_crc data p) data.length).drop
        data.length).length := by omega
    exact List.exists_mem_of_length_pos this
  rw [hne]
  simp only [Bool.false_eq_true, if_false, Option.some.injEq]
  apply all_eq_true_of_getD
  intro k _
  rw [getD_drop]
  exact key k

/-- Value of a bit string read most-significant-bit first, as Python
int(s, 2) does on a nonempty string of 0 and 1 characters. -/
def bitsToNat (l : List Bool) : Nat :=
  l.foldl (fun acc b => 2 * acc + (if b then 1 else 0)) 0

theorem foldl_bits (l : List Bool) :
    ∀ a : Nat, l.foldl (fun acc b => 2 * acc + (if b then 1 else 0)) a
      = a * 2 ^ l.length + bitsToNat l := by
  induction l with
  | nil => intro a; simp [bitsToNat]
  | cons b t ih =>
    intro a
    have h1 : bitsToNat (b :: t) = (if b then 1 else 0) * 2 ^ t.length + bitsToNat t := by
      show List.foldl _ (2 * 0 + (if b then 1 else 0)) t = _
      rw [ih]
      ring_nf
    rw [List.foldl_cons, ih, h1, List.length_cons, pow_succ]
    ring

theorem bitsToNat_append (l l' : List Bool) :
    bitsToNat (l ++ l') = bitsToNat l * 2 ^ l'.length + bitsToNat l' := by
  unfold bitsToNat
  rw [List.foldl_append]
  exact foldl_bits l' _

theorem bitsToNat_replicate_false (m : Nat) :
    bitsToNat (List.replicate m false) = 0 := by
  induction m with
  | zero => rfl
  | succ m ih =>
    show List.foldl _ (2 * 0 + 0) (List.replicate m false) = 0
    simpa [bitsToNat] using ih

/-- Left zero padding of a bit string to width w, as str.zfill and the 0-pad
of a format width do. -/
def zfill (w : Nat) (l : List Bool) : List Bool :=
  List.replicate (w - l.length) false ++ l

theorem bitsToNat_zfill (w : Nat) (l : List Bool) :
    bitsToNat (zfill w l) = bitsToNat l := by
  unfold zfill
  rw [bitsToNat_append, bitsToNat_replicate_false]
  simp

theorem zfill_length (w : Nat) (l : List Bool) (h : l.length ≤ w) :
    (zfill w l).length = w := by
  simp [zfill]
  omega

/-- Binary digits of n, least significant first, by repeated division: the
fuel argument only bounds the recursion depth and n itself is always enough,
since halving a positive number at least n times reaches zero. -/
def bitsLEAux : Nat → Nat → List Bool
  | _, 0 => []
  | 0, _ + 1 => []
  | f + 1, n + 1 => (((n + 1) % 2) == 1) :: bitsLEAux f ((n + 1) / 2)

theorem bitsToNat_reverse_bitsLEAux :
    ∀ f n, n ≤ f → bitsToNat ((bitsLEAux f n).reverse) = n := by
  intro f
  induction f with
  | zero =>
    intro n h
    have : n = 0 := Nat.le_zero.mp h
    subst this
    rfl
  | succ f ih =>
    intro n h
    cases n with
    | zero => rfl
    | succ m =>
      show bitsToNat (((((m + 1) % 2) == 1) :: bitsLEAux f ((m + 1) / 2)).reverse) = m + 1
      rw [List.reverse_cons, bitsToNat_append]
      have hrec : bitsToNat ((bitsLEAux f ((m + 1) / 2)).reverse) = (m + 1) / 2 :=
        ih _ (by omega)
      have hone : bitsToNat [(((m + 1) % 2) == 1)] = (m + 1) % 2 := by
        have h2 := Nat.mod_two_eq_zero_or_one (m + 1)
        rcases h2 with h2 | h2 <;> rw [h2] <;> rfl
      rw [hrec, hone]
      simp only [List.length_cons, List.length_nil, pow_one]
      omega

theorem bitsLEAux_length :
    ∀ f n k, n ≤ f → n < 2 ^ k → (bitsLEAux f n).length ≤ k := by
  intro f
  induction f with
  | zero =>
    intro n k h _
    have : n = 0 := Nat.le_zero.mp h
    subst this
    simp [bitsLEAux]
  | succ f ih =>
    intro n k h hk
    cases n with
    | zero => simp [bitsLEAux]
    | succ m =>
      cases k with
      | zero => simp at hk
      | succ k' =>
        show ((((m + 1) % 2) == 1) :: bitsLEAux f ((m + 1) / 2)).length ≤ k' + 1
        rw [List.length_cons]
        have hk' : (m + 1) / 2 < 2 ^ k' := by
          rw [pow_succ] at hk
          omega
        have := ih ((m + 1) / 2) k' (by omega) hk'
        omega

/-- Minimal binary representation of x, most significant bit first, with a
single 0 digit for x = 0: this is bin(x)[2:] in src/datalink.py. -/
def natBits (x : Nat) : List Bool :=
  if x = 0 then [false] else (bitsLEAux x x).reverse

theorem bitsToNat_natBits (x : Nat) : bitsToNat (natBits x) = x := by
  unfold natBits
  split
  · rename_i h; subst h; rfl
  · exact bitsToNat_reverse_bitsLEAux x x (Nat.le_refl x)

theorem natBits_length_le (x k : Nat) (h1 : 1 ≤ k) (h2 : x < 2 ^ k) :
    (natBits x).length ≤ k := by
  unfold natBits
  split
  · simpa using h1
  · rw [List.length_reverse]
    exact bitsLEAux_length x x k (Nat.le_refl x) h2

/-- The fixed-width bit pattern of one payload character, as
format(ord(char), '08b'): at least eight bits, zero padded on the left. -/
def charBits (c : Nat) : List Bool := zfill 8 (natBits c)

theorem charBits_length (c : Nat) (h : c < 256) : (charBits c).length = 8 := by
  unfold charBits
  apply zfill_length
  apply natBits_length_le c 8 (by norm_num)
  have h8 : (2 : Nat) ^ 8 = 256 := by norm_num
  omega

theorem bitsToNat_charBits (c : Nat) : bitsToNat (charBits c) = c := by
  unfold charBits
  rw [bitsToNat_zfill, bitsToNat_natBits]

/-- frame_data from src/datalink.py: a two-bit sequence field holding
sequence_number mod 4, the payload characters at eight bits each, and the
appended check value over sequence field plus payload bits. -/
def frame_data (polynomial : List Bool) (data : List Nat) (sequence_number : Nat) :
    List Bool :=
  let seq_num_binary := zfill 2 (natBits (sequence_number % 4))
  let data_bits := (data.map charBits).flatten
  let frame_payload := seq_num_binary ++ data_bits
  frame_payload ++ generate_crc frame_payload polynomial

/-- The decode loop of unframe_data: successive slices data_bits[i : i + 8]
for i = 0, 8, 16, ...; a trailing slice shorter than eight bits is still a
nonempty slice and is kept.  Fuel-indexed structural version of the Python
range loop; the list length is always sufficient fuel. -/
def chunkBytesAux : Nat → List Bool → List (List Bool)
  | _, [] => []
  | 0, _ :: _ => []
  | f + 1, b :: t => (b :: t.take 7) :: chunkBytesAux f (t.drop 7)

def chunkBytes (l : List Bool) : List (List Bool) := chunkBytesAux l.length l

theorem chunkBytesAux_nil (f : Nat) : chunkBytesAux f [] = [] := by
  cases f <;> rfl

theorem chunkBytesAux_fuel :
    ∀ f f' (l : List Bool), l.length ≤ f → l.length ≤ f' →
      chunkBytesAux f l = chunkBytesAux f' l := by
  intro f
  induction f with
  | zero =>
    intro f' l h _
    have : l = [] := List.eq_nil_of_length_eq_zero (Nat.le_zero.mp h)
    subst this
    rw [chunkBytesAux_nil, chunkBytesAux_nil]
  | succ f ih =>
    intro f' l h h'
    cases l with
    | nil => rw [chunkBytesAux_nil, chunkBytesAux_nil]
    | cons b t =>
      cases f' with
      | zero => simp at h'
      | succ f'' =>
        show (b :: t.take 7) :: chunkBytesAux f (t.drop 7)
            = (b :: t.take 7) :: chunkBytesAux f'' (t.drop 7)
        have hl : (t.drop 7).length ≤ f := by
          simp only [List.length_drop]
          simp only [List.length_cons] at h
          omega
        have hl' : (t.drop 7).length ≤ f'' := by
          simp only [List.length_drop]
          simp only [List.length_cons] at h'
          omega
        rw [ih f'' (t.drop 7) hl hl']

theorem chunkBytes_cons (b : Bool) (t : List Bool) :
    chunkBytes (b :: t) = (b :: t.take 7) :: chunkBytes (t.drop 7) := by
  show chunkBytesAux (t.length + 1) (b :: t)
      = (b :: t.take 7) :: chunkBytesAux (t.drop 7).length (t.drop 7)
  show (b :: t.take 7) :: chunkBytesAux t.length (t.drop 7)
      = (b :: t.take 7) :: chunkBytesAux (t.drop 7).length (t.drop 7)
  rw [chunkBytesAux_fuel t.length (t.drop 7).length (t.drop 7)
    (by simp only [List.length_drop]; omega) (Nat.le_refl _)]

theorem chunkBytes_append8 (a l : List Bool) (h : a.length = 8) :
    chunkBytes (a ++ l) = a :: chunkBytes l := by
  cases a with
  | nil => simp at h
  | cons b t =>
    have ht : t.length = 7 := by simpa using h
    rw [List.cons_append, chunkBytes_cons]
    have h1 : (t ++ l).take 7 = t := by rw [← ht]; exact List.take_left t l
    have h2 : (t ++ l).drop 7 = l := by rw [← ht]; exact List.drop_left t l
    rw [h1, h2]

theorem chunkBytes_flatten (data : List Nat) (h : ∀ c ∈ data, c < 256) :
    chunkBytes ((data.map charBits).flatten) = data.map charBits := by
  induction data with
  | nil => rfl
  | cons c rest ih =>
    rw [List.map_cons, List.flatten_cons,
      chunkBytes_append8 _ _ (charBits_length c (h c (List.mem_cons_self c rest))),
      ih (fun x hx => h x (List.mem_cons_of_mem c hx))]

theorem flatten_charBits_length (data : List Nat) (h : ∀ c ∈ data, c < 256) :
    ((data.map charBits).flatten).length = 8 * data.length := by
  induction data with
  | nil => rfl
  | cons c rest ih =>
    rw [List.map_cons, List.flatten_cons, List.length_append,
      charBits_length c (h c (List.mem_cons_self c rest)),
      ih (fun x hx => h x (List.mem_cons_of_mem c hx))]
    simp
    ring

theorem map_bitsToNat_charBits (data : List Nat) :
    (data.map charBits).map bitsToNat = data := by
  induction data with
  | nil => rfl
  | cons c rest ih => rw [List.map_cons, List.map_cons, bitsToNat_charBits, ih]

/-- unframe_data from src/datalink.py: frames shorter than the sequence
field plus check width are corrupted; a failed check is corrupted; otherwise
the two-bit sequence field and the payload slice frame[2 : -(n-1)] are
decoded, the payload in eight-bit slices.  The none result models the
ValueError that check_crc raises on an empty remainder, which cannot occur
for the four-bit generator once the length guard has passed. -/
def unframe_data (polynomial : List Bool) (frame : List Bool) :
    Option (Option Nat × Option (List Nat) × Bool) :=
  if frame.length < polynomial.length + 1 then some (none, none, true)
  else
    match check_crc frame polynomial with
    | none => none
    | some ok =>
      if !ok then some (none, none, true)
      else
        let data_bits := (frame.drop 2).take (frame.length - (polynomial.length - 1) - 2)
        some (some (bitsToNat (frame.take 2)),
          some ((chunkBytes data_bits).map bitsToNat), false)

/-- Framing then unframing with the default generator recovers the sequence
number modulo 4, the payload, and a clean corruption flag, for payloads over
the eight-bit alphabet and any sequence number. -/
theorem frame_unframe_aux (data : List Nat) (h2 : ∀ c ∈ data, c < 256) (s : Nat) :
    unframe_data defaultPolynomial (frame_data defaultPolynomial data s)
      = some (some (s % 4), some data, false) := by
  have hseqB : (zfill 2 (natBits (s % 4))).length = 2 := by
    apply zfill_length
    apply natBits_length_le _ 2 (by norm_num)
    have h4 : (2 : Nat) ^ 2 = 4 := by norm_num
    omega
  have hdataB : ((data.map charBits).flatten).length = 8 * data.length :=
    flatten_charBits_length data h2
  have hframe : frame_data defaultPolynomial data s
      = (zfill 2 (natBits (s % 4)) ++ (data.map charBits).flatten)
        ++ generate_crc
            (zfill 2 (natBits (s % 4)) ++ (data.map charBits).flatten)
            defaultPolynomial := rfl
  have hcrcl : (generate_crc
      (zfill 2 (natBits (s % 4)) ++ (data.map charBits).flatten)
      defaultPolynomial).length = 3 := by
    rw [generate_crc_length]
    rfl
  have hLen : (frame_data defaultPolynomial data s).length = 8 * data.length + 5 := by
    rw [hframe]
    simp only [List.length_append, hcrcl, hseqB, hdataB]
    omega
  have hchk : check_crc (frame_data defaultPolynomial data s) defaultPolynomial
      = some true := by
    rw [hframe]
    exact crc_check_roundtrip defaultPolynomial _ (by norm_num [defaultPolynomial])
  unfold unframe_data
  rw [if_neg (by rw [hLen]; show ¬ 8 * data.length + 5 < 4 + 1; omega), hchk]
  simp only [Bool.not_true, Bool.false_eq_true, if_false, Option.some.injEq]
  have hassoc : frame_data defaultPolynomial data s
      = zfill 2 (natBits (s % 4))
        ++ ((data.map charBits).flatten
          ++ generate_crc
              (zfill 2 (natBits (s % 4)) ++ (data.map charBits).flatten)
              defaultPolynomial) := by
    rw [hframe, List.append_assoc]
  have htake2 : (frame_data defaultPolynomial data s).take 2
      = zfill 2 (natBits (s % 4)) := by
    have h := List.take_left (zfill 2 (natBits (s % 4)))
      ((data.map charBits).flatten
        ++ generate_crc
            (zfill 2 (natBits (s % 4)) ++ (data.map charBits).flatten)
            defaultPolynomial)
    rw [hseqB] at h
    rw [hassoc]
    exact h
  have hdrop2 : (frame_data defaultPolynomial data s).drop 2
      = (data.map charBits).flatten
        ++ generate_crc
            (zfill 2 (natBits (s % 4)) ++ (data.map charBits).flatten)
            defaultPolynomial := by
    have h := List.drop_left (zfill 2 (natBits (s % 4)))
      ((data.map charBits).flatten
        ++ generate_crc
            (zfill 2 (natBits (s % 4)) ++ (data.map charBits).flatten)
            defaultPolynomial)
    rw [hseqB] at h
    rw [hassoc]
    exact h
  have hidx : (frame_data defaultPolynomial data s).length
      - (defaultPolynomial.length - 1) - 2 = 8 * data.length := by
    rw [hLen]
    show 8 * data.length + 5 - (4 - 1) - 2 = 8 * data.length
    omega
  have hdb : ((frame_data defaultPolynomial data s).drop 2).take
      ((frame_data defaultPolynomial data s).length
        - (defaultPolynomial.length - 1) - 2)
      = (data.map charBits).flatten := by
    have h := List.take_left ((data.map charBits).flatten)
      (generate_crc
        (zfill 2 (natBits (s % 4)) ++ (data.map charBits).flatten)
        defaultPolynomial)
    rw [hdataB] at h
    rw [hidx, hdrop2]
    exact h
  rw [htake2, hdb, bitsToNat_zfill, bitsToNat_natBits,
    chunkBytes_flatten data h2, map_bitsToNat_charBits]

/-- Receiver-side state of a DataLinkLayerNode: the expected in-order
sequence index and the dictionary of buffered out-of-order frames. -/
structure RecvState where
  next_frame_to_deliver : Nat
  received_frames : List (Nat × List Nat)
deriving Repr, DecidableEq

/-- Dictionary lookup in the received_frames mapping. -/
def lookupFrame : Nat → List (Nat × List Nat) → Option (List Nat)
  | _, [] => none
  | k, (k', v) :: rest => if k = k' then some v else lookupFrame k rest

/-- Dictionary key removal, as received_frames.pop(key). -/
def eraseFrame : Nat → List (Nat × List Nat) → List (Nat × List Nat)
  | _, [] => []
  | k, (k', v) :: rest =>
    if k' = k then eraseFrame k rest else (k', v) :: eraseFrame k rest

/-- Dictionary insert or overwrite, as received_frames[key] = data. -/
def insertFrame (k : Nat) (v : List Nat) (l : List (Nat × List Nat)) :
    List (Nat × List Nat) :=
  (k, v) :: eraseFrame k l

/-- The while loop of process_received_frame that pops successive buffered
frames: while next in received: pop next; next = next + 1.  Fuel-indexed;
each iteration removes a key, so the buffer size is always enough fuel. -/
def drainFuel : Nat → List (Nat × List Nat) → Nat → List (Nat × List Nat) × Nat
  | 0, buf, next => (buf, next)
  | fuel + 1, buf, next =>
    match lookupFrame next buf with
    | some _ => drainFuel fuel (eraseFrame next buf) (next + 1)
    | none => (buf, next)

def drain (buf : List (Nat × List Nat)) (next : Nat) :
    List (Nat × List Nat) × Nat :=
  drainFuel buf.length buf next

/-- process_received_frame from src/datalink.py, returning the new receiver
state and the acknowledgment to send, if any. -/
def process_received_frame (st : RecvState) (sequence_number : Option Nat)
    (data : List Nat) : RecvState × Option Nat :=
  match sequence_number with
  | none => (st, none)
  | some seq =>
    if seq = st.next_frame_to_deliver then
      let d := drain st.received_frames (st.next_frame_to_deliver + 1)
      (⟨d.2, d.1⟩, some seq)
    else if st.next_frame_to_deliver < seq then
      (⟨st.next_frame_to_deliver, insertFrame seq data st.received_frames⟩,
        if 0 < st.next_frame_to_deliver then some (st.next_frame_to_deliver - 1)
        else none)
    else (st, some seq)

theorem lookupFrame_erase_self (k : Nat) (l : List (Nat × List Nat)) :
    lookupFrame k (eraseFrame k l) = none := by
  induction l with
  | nil => rfl
  | cons p rest ih =>
    obtain ⟨k', v⟩ := p
    by_cases h : k' = k
    · simp only [eraseFrame, if_pos h]
      exact ih
    · simp only [eraseFrame, if_neg h, lookupFrame]
      rw [if_neg (fun hk => h hk.symm)]
      exact ih

theorem lookupFrame_erase_ne (k j : Nat) (l : List (Nat × List Nat))
    (h : k ≠ j) : lookupFrame k (eraseFrame j l) = lookupFrame k l := by
  induction l with
  | nil => rfl
  | cons p rest ih =>
    obtain ⟨k', v⟩ := p
    by_cases h' : k' = j
    · subst h'
      simp only [eraseFrame, if_pos rfl, lookupFrame]
      rw [if_neg h]
      exact ih
    · simp only [eraseFrame, if_neg h', lookupFrame]
      by_cases hk : k = k'
      · rw [if_pos hk, if_pos hk]
      · rw [if_neg hk, if_neg hk]
        exact ih

theorem eraseFrame_length_le (k : Nat) (l : List (Nat × List Nat)) :
    (eraseFrame k l).length ≤ l.length := by
  induction l with
  | nil => exact Nat.le_refl 0
  | cons p rest ih =>
    obtain ⟨k', v⟩ := p
    by_cases h : k' = k
    · simp only [eraseFrame, if_pos h, List.length_cons]
      omega
    · simp only [eraseFrame, if_neg h, List.length_cons]
      omega

theorem eraseFrame_length_lt (k : Nat) (l : List (Nat × List Nat))
    (h : (lookupFrame k l).isSome = true) :
    (eraseFrame k l).length < l.length := by
  induction l with
  | nil => simp [lookupFrame] at h
  | cons p rest ih =>
    obtain ⟨k', v⟩ := p
    by_cases hk : k' = k
    · simp only [eraseFrame, if_pos hk, List.length_cons]
      have := eraseFrame_length_le k rest
      omega
    · simp only [eraseFrame, if_neg hk, List.length_cons]
      simp only [lookupFrame] at h
      rw [if_neg (fun he => hk he.symm)] at h
      have := ih h
      omega

theorem lookupFrame_insert_self (k : Nat) (v : List Nat)
    (l : List (Nat × List Nat)) :
    lookupFrame k (insertFrame k v l) = some v := by
  simp [insertFrame, lookupFrame]

theorem lookupFrame_insert_ne (j k : Nat) (v : List Nat)
    (l : List (Nat × List Nat)) (h : j ≠ k) :
    lookupFrame j (insertFrame k v l) = lookupFrame j l := by
  simp only [insertFrame, lookupFrame, if_neg h]
  exact lookupFrame_erase_ne j k l h

/-- Full characterisation of the drain loop: the delivery pointer only
advances, every index it passes was buffered and is removed, the loop stops
at the first unbuffered index, and all other entries are untouched. -/
theorem drainFuel_spec :
    ∀ (fuel : Nat) (buf : List (Nat × List Nat)) (start : Nat),
      buf.length ≤ fuel →
      start ≤ (drainFuel fuel buf start).2 ∧
      (∀ k, start ≤ k → k < (drainFuel fuel buf start).2 →
        (lookupFrame k buf).isSome = true ∧
          lookupFrame k (drainFuel fuel buf start).1 = none) ∧
      lookupFrame (drainFuel fuel buf start).2 (drainFuel fuel buf start).1 = none ∧
      (∀ k, k < start ∨ (drainFuel fuel buf start).2 ≤ k →
        lookupFrame k (drainFuel fuel buf start).1 = lookupFrame k buf) := by
  intro fuel
  induction fuel with
  | zero =>
    intro buf start h
    have hbuf : buf = [] := List.eq_nil_of_length_eq_zero (Nat.le_zero.mp h)
    subst hbuf
    refine ⟨Nat.le_refl _, fun k h1 h2 => ?_, rfl, fun k _ => rfl⟩
    have h2' : k < start := h2
    omega
  | succ fuel ih =>
    intro buf start h
    cases hl : lookupFrame start buf with
    | none =>
      have hstep : drainFuel (fuel + 1) buf start = (buf, start) := by
        simp [drainFuel, hl]
      rw [hstep]
      exact ⟨Nat.le_refl _, fun k h1 h2 => absurd h2 (by omega), hl, fun k _ => rfl⟩
    | some v =>
      have hstep : drainFuel (fuel + 1) buf start
          = drainFuel fuel (eraseFrame start buf) (start + 1) := by
        simp [drainFuel, hl]
      have hlen : (eraseFrame start buf).length ≤ fuel := by
        have := eraseFrame_length_lt start buf (by rw [hl]; rfl)
        omega
      obtain ⟨ih1, ih2, ih3, ih4⟩ := ih (eraseFrame start buf) (start + 1) hlen
      rw [hstep]
      refine ⟨by omega, ?_, ih3, ?_⟩
      · intro k hk1 hk2
        by_cases hk : k = start
        · subst hk
          refine ⟨by rw [hl]; rfl, ?_⟩
          rw [ih4 k (Or.inl (by omega))]
          exact lookupFrame_erase_self k buf
        · have hk1' : start + 1 ≤ k := by omega
          obtain ⟨ha, hb⟩ := ih2 k hk1' hk2
          rw [lookupFrame_erase_ne k start buf hk] at ha
          exact ⟨ha, hb⟩
      · intro k hk
        have hk' : k < start + 1 ∨ (drainFuel fuel (eraseFrame start buf) (start + 1)).2 ≤ k := by
          rcases hk with hk | hk
          · exact Or.inl (by omega)
          · exact Or.inr hk
        have hkne : k ≠ start := by
          rcases hk with hk | hk
          · omega
          · omega
        rw [ih4 k hk', lookupFrame_erase_ne k start buf hkne]

theorem drain_spec (buf : List (Nat × List Nat)) (start : Nat) :
    start ≤ (drain buf start).2 ∧
    (∀ k, start ≤ k → k < (drain buf start).2 →
      (lookupFrame k buf).isSome = true ∧
        lookupFrame k (drain buf start).1 = none) ∧
    lookupFrame (drain buf start).2 (drain buf start).1 = none ∧
    (∀ k, k < start ∨ (drain buf start).2 ≤ k →
      lookupFrame k (drain buf start).1 = lookupFrame k buf) :=
  drainFuel_spec buf.length buf start (Nat.le_refl _)

/-- Combined state of the sender node fields and the receiver node that
next_simulation_step in src/datalink.py mutates. -/
structure SimState where
  send_buffer : List Nat
  next_frame_to_send : Nat
  expected_frame_ack : Nat
  window_size : Nat
  receiver : RecvState
deriving Repr, DecidableEq

/-- A freshly started simulation: both nodes new, the send buffer filled
with the input characters, window size 3. -/
def initState (data : List Nat) : SimState := ⟨data, 0, 0, 3, ⟨0, []⟩⟩

/-- Outcome of simulate_channel_gui for the data frame, as an oracle: the
frame is lost, or some bit string reaches the receiver.  The delivered case
ranges over every possible outcome, covering both the intact frame and the
one-bit corruption the Python channel can apply. -/
inductive ChannelResult where
  | lost
  | delivered (received : List Bool)
deriving Repr, DecidableEq

/-- The can_send_new_frame condition at the start of next_simulation_step. -/
def can_send_new_frame (st : SimState) : Bool :=
  decide (st.next_frame_to_send < st.send_buffer.length) &&
    decide (st.next_frame_to_send < st.expected_frame_ack + st.window_size)

/-- The receiver and acknowledgment part of next_simulation_step, run when
the channel delivered a bit string: unframe, drop if corrupted, otherwise
process at the receiver and, if an ACK is produced, slide the sender window
(the ACK channel is reliable).  The none arm of unframe_data is unreachable
for the four-bit default generator. -/
def receive_and_ack (st : SimState) (rcv : List Bool) : SimState :=
  match unframe_data defaultPolynomial rcv with
  | none => st
  | some (seq_num, data_unframed, is_corrupted) =>
    if is_corrupted then st
    else
      let res := process_received_frame st.receiver seq_num (data_unframed.getD [])
      let st1 := { st with receiver := res.1 }
      match res.2 with
      | some a =>
        if st1.expected_frame_ack ≤ a then
          { st1 with expected_frame_ack := a + 1 }
        else st1
      | none => st1

/-- One call of next_simulation_step: if a new frame can be sent, it is
framed and pushed through the channel, the receiver and ACK handling run on
what arrives, and next_frame_to_send is incremented unconditionally at the
end of the branch; otherwise no state changes. -/
def next_simulation_step (st : SimState) (ch : ChannelResult) : SimState :=
  if can_send_new_frame st then
    let afterRecv :=
      match ch with
      | ChannelResult.lost => st
      | ChannelResult.delivered rcv => receive_and_ack st rcv
    { afterRecv with next_frame_to_send := afterRecv.next_frame_to_send + 1 }
  else st

/-- States reachable from a fresh simulation by any sequence of steps with
any channel outcomes; acknowledgment updates happen inside the steps. -/
inductive Reachable : SimState → Prop where
  | init (data : List Nat) : Reachable (initState data)
  | step (st : SimState) (ch : ChannelResult) :
      Reachable st → Reachable (next_simulation_step st ch)

theorem receive_and_ack_fields (st : SimState) (rcv : List Bool) :
    (receive_and_ack st rcv).send_buffer = st.send_buffer ∧
    (receive_and_ack st rcv).next_frame_to_send = st.next_frame_to_send ∧
    (receive_and_ack st rcv).window_size = st.window_size ∧
    st.expected_frame_ack ≤ (receive_and_ack st rcv).expected_frame_ack := by
  unfold receive_and_ack
  split
  · exact ⟨rfl, rfl, rfl, Nat.le_refl _⟩
  · split
    · exact ⟨rfl, rfl, rfl, Nat.le_refl _⟩
    · dsimp only
      split
      · split
        · rename_i hle
          refine ⟨rfl, rfl, rfl, ?_⟩
          simp only at hle ⊢
          omega
        · exact ⟨rfl, rfl, rfl, Nat.le_refl _⟩
      · exact ⟨rfl, rfl, rfl, Nat.le_refl _⟩

theorem chunkBytes_length_aux :
    ∀ (N : Nat) (l : List Bool), l.length ≤ N →
      (chunkBytes l).length = (l.length + 7) / 8 := by
  intro N
  induction N with
  | zero =>
    intro l h
    have : l = [] := List.eq_nil_of_length_eq_zero (Nat.le_zero.mp h)
    subst this
    rfl
  | succ N ih =>
    intro l h
    cases l with
    | nil => rfl
    | cons b t =>
      rw [chunkBytes_cons, List.length_cons, List.length_cons,
        ih (t.drop 7) (by simp only [List.length_drop]; simp only [List.length_cons] at h; omega)]
      simp only [List.length_drop]
      omega

theorem chunkBytes_length (l : List Bool) :
    (chunkBytes l).length = (l.length + 7) / 8 :=
  chunkBytes_length_aux l.length l (Nat.le_refl _)

theorem chunkBytes_ne_nil (l : List Bool) (h : l ≠ []) : chunkBytes l ≠ [] := by
  cases l with
  | nil => exact absurd rfl h
  | cons b t => rw [chunkBytes_cons]; simp

theorem chunkBytes_getLast_aux :
    ∀ (N : Nat) (l : List Bool), l.length ≤ N → l.length % 8 ≠ 0 →
      (chunkBytes l).getLast? = some (l.drop (8 * (l.length / 8))) := by
  intro N
  induction N with
  | zero =>
    intro l h hm
    have : l = [] := List.eq_nil_of_length_eq_zero (Nat.le_zero.mp h)
    subst this
    simp at hm
  | succ N ih =>
    intro l h hm
    cases l with
    | nil => simp at hm
    | cons b t =>
      rw [chunkBytes_cons]
      by_cases hlen : t.length < 7
      · have hdrop : t.drop 7 = [] := List.drop_eq_nil_of_le (by omega)
        rw [hdrop]
        show [b :: t.take 7].getLast? = _
        have hq : (b :: t).length / 8 = 0 := by
          simp only [List.length_cons]
          omega
        rw [hq, Nat.mul_zero, List.drop_zero, List.take_of_length_le (by omega)]
        rfl
      · have hge : 8 ≤ t.length := by
          simp only [List.length_cons] at hm
          omega
        have hmod : (t.drop 7).length % 8 ≠ 0 := by
          simp only [List.length_drop]
          simp only [List.length_cons] at hm
          omega
        have hne : t.drop 7 ≠ [] := by
          intro hh
          have := congrArg List.length hh
          simp only [List.length_drop, List.length_nil] at this
          omega
        obtain ⟨c, cs, hcc⟩ := List.exists_cons_of_ne_nil (chunkBytes_ne_nil _ hne)
        rw [hcc, List.getLast?_cons_cons, ← hcc,
          ih (t.drop 7) (by simp only [List.length_drop]
                            simp only [List.length_cons] at h; omega) hmod]
        simp only [List.length_drop]
        have hq : 8 * ((b :: t).length / 8) = (7 + 8 * ((t.length - 7) / 8)) + 1 := by
          simp only [List.length_cons]
          omega
        rw [hq, List.drop_succ_cons, ← List.drop_drop]

theorem chunkBytes_getLast_partial (l : List Bool) (h : l.length % 8 ≠ 0) :
    (chunkBytes l).getLast? = some (l.drop (8 * (l.length / 8))) :=
  chunkBytes_getLast_aux l.length l (Nat.le_refl _) h

theorem can_send_iff (st : SimState) :
    can_send_new_frame st = true ↔
      st.next_frame_to_send < st.send_buffer.length ∧
      st.next_frame_to_send < st.expected_frame_ack + st.window_size := by
  simp [can_send_new_frame]

theorem step_next_of_can_send (st : SimState) (ch : ChannelResult)
    (h : can_send_new_frame st = true) :
    (next_simulation_step st ch).next_frame_to_send = st.next_frame_to_send + 1 ∧
    (next_simulation_step st ch).window_size = st.window_size ∧
    (next_simulation_step st ch).send_buffer = st.send_buffer ∧
    st.expected_frame_ack ≤ (next_simulation_step st ch).expected_frame_ack := by
  unfold next_simulation_step
  rw [if_pos h]
  cases ch with
  | lost => exact ⟨rfl, rfl, rfl, Nat.le_refl _⟩
  | delivered rcv =>
    obtain ⟨h1, h2, h3, h4⟩ := receive_and_ack_fields st rcv
    refine ⟨?_, ?_, ?_, ?_⟩
    · show (receive_and_ack st rcv).next_frame_to_send + 1 = st.next_frame_to_send + 1
      rw [h2]
    · exact h3
    · exact h1
    · exact h4

theorem step_of_cannot_send (st : SimState) (ch : ChannelResult)
    (h : ¬ can_send_new_frame st = true) :
    next_simulation_step st ch = st := by
  unfold next_simulation_step
  rw [if_neg h]

/-- Claim C1: unframing a frame built by frame_data with a sequence number
in [0, 4) and a payload over the eight-bit alphabet returns the same
sequence number, the same payload, and corrupted = false. -/
theorem c1_framer_roundtrip (data : List Nat) (seq : Nat) (h1 : seq < 4)
    (h2 : ∀ c ∈ data, c < 256) :
    unframe_data defaultPolynomial (frame_data defaultPolynomial data seq)
      = some (some seq, some data, false) := by
  have h := frame_unframe_aux data h2 seq
  rwa [Nat.mod_eq_of_lt h1] at h

theorem c1_framer_roundtrip_witness :
    unframe_data defaultPolynomial (frame_data defaultPolynomial [72, 105] 2)
      = some (some 2, some [72, 105], false) :=
  c1_framer_roundtrip [72, 105] 2 (by decide) (by decide)

/-- Claim C2: appending the check value produced by generate_crc to any
non-empty data bit string makes check_crc succeed with the fixed generator
1011, the division of data plus check leaving the all-zero remainder. -/
theorem c2_crc_roundtrip (data : List Bool) (_hne : data ≠ []) :
    check_crc (data ++ generate_crc data defaultPolynomial) defaultPolynomial
      = some true :=
  crc_check_roundtrip defaultPolynomial data (by norm_num [defaultPolynomial])

theorem c2_crc_roundtrip_witness :
    check_crc ([true] ++ generate_crc [true] defaultPolynomial) defaultPolynomial
      = some true :=
  c2_crc_roundtrip [true] (by decide)

/-- Claim C3: in every state reachable from a fresh simulation by any
sequence of steps, the distance from the window base expected_frame_ack to
next_frame_to_send is at most the window size. -/
theorem c3_window_invariant (st : SimState) (h : Reachable st) :
    st.next_frame_to_send - st.expected_frame_ack ≤ st.window_size := by
  induction h with
  | init data =>
    show 0 - 0 ≤ 3
    omega
  | step st' ch hr ih =>
    by_cases hc : can_send_new_frame st' = true
    · obtain ⟨h1, h2, h3, h4⟩ := step_next_of_can_send st' ch hc
      have hcan := (can_send_iff st').mp hc
      omega
    · rw [step_of_cannot_send st' ch hc]
      exact ih

theorem c3_window_invariant_witness :
    (initState [72]).next_frame_to_send - (initState [72]).expected_frame_ack
      ≤ (initState [72]).window_size :=
  c3_window_invariant (initState [72]) (Reachable.init [72])

/-- Claim C4: receiving the expected in-order sequence number returns that
number as the acknowledgment, advances next_frame_to_deliver past every
contiguously buffered entry, removes each drained entry from the buffer,
stops at the first unbuffered index, and leaves all other entries alone; in
particular the returned acknowledgment is the sequence number received in
this call, not the final delivered number. -/
theorem c4_inorder_receive (st : RecvState) (d : List Nat) :
    (process_received_frame st (some st.next_frame_to_deliver) d).2
        = some st.next_frame_to_deliver ∧
    st.next_frame_to_deliver
        < (process_received_frame st (some st.next_frame_to_deliver) d).1.next_frame_to_deliver ∧
    (∀ k, st.next_frame_to_deliver < k →
      k < (process_received_frame st (some st.next_frame_to_deliver) d).1.next_frame_to_deliver →
      (lookupFrame k st.received_frames).isSome = true ∧
        lookupFrame k
          (process_received_frame st (some st.next_frame_to_deliver) d).1.received_frames
          = none) ∧
    lookupFrame
        (process_received_frame st (some st.next_frame_to_deliver) d).1.next_frame_to_deliver
        st.received_frames = none ∧
    (∀ k, k ≤ st.next_frame_to_deliver ∨
        (process_received_frame st (some st.next_frame_to_deliver) d).1.next_frame_to_deliver ≤ k →
      lookupFrame k
          (process_received_frame st (some st.next_frame_to_deliver) d).1.received_frames
        = lookupFrame k st.received_frames) := by
  have hp : process_received_frame st (some st.next_frame_to_deliver) d
      = (⟨(drain st.received_frames (st.next_frame_to_deliver + 1)).2,
          (drain st.received_frames (st.next_frame_to_deliver + 1)).1⟩,
        some st.next_frame_to_deliver) := by
    unfold process_received_frame
    dsimp only
    rw [if_pos rfl]
  rw [hp]
  dsimp only
  obtain ⟨d1, d2, d3, d4⟩ := drain_spec st.received_frames (st.next_frame_to_deliver + 1)
  refine ⟨rfl, by omega, ?_, ?_, ?_⟩
  · intro k hk1 hk2
    exact d2 k (by omega) hk2
  · rw [← d4 _ (Or.inr (Nat.le_refl _))]
    exact d3
  · intro k hk
    refine d4 k ?_
    rcases hk with hk | hk
    · exact Or.inl (by omega)
    · exact Or.inr hk

theorem c4_inorder_receive_witness :
    (process_received_frame ⟨0, [(1, [66]), (3, [67])]⟩ (some 0) [65]).2 = some 0 ∧
    ((lookupFrame 1 [(1, [66]), (3, [67])]).isSome = true ∧
      lookupFrame 1
        (process_received_frame ⟨0, [(1, [66]), (3, [67])]⟩ (some 0) [65]).1.received_frames
        = none) ∧
    lookupFrame 3
        (process_received_frame ⟨0, [(1, [66]), (3, [67])]⟩ (some 0) [65]).1.received_frames
      = lookupFrame 3 [(1, [66]), (3, [67])] :=
  ⟨(c4_inorder_receive ⟨0, [(1, [66]), (3, [67])]⟩ [65]).1,
    (c4_inorder_receive ⟨0, [(1, [66]), (3, [67])]⟩ [65]).2.2.1 1 (by decide) (by decide),
    (c4_inorder_receive ⟨0, [(1, [66]), (3, [67])]⟩ [65]).2.2.2.2 3 (Or.inr (by decide))⟩

/-- Claim C5: whenever the can-send condition holds at the start of a step,
next_frame_to_send is incremented by exactly one whatever the channel does;
in particular a forced loss of the first frame leaves next_frame_to_send at
1 while the window base stays at 0. -/
theorem c5_fire_and_forget :
    (∀ (st : SimState) (ch : ChannelResult), can_send_new_frame st = true →
      (next_simulation_step st ch).next_frame_to_send = st.next_frame_to_send + 1) ∧
    (∀ data : List Nat, data ≠ [] →
      (next_simulation_step (initState data) ChannelResult.lost).next_frame_to_send = 1 ∧
      (next_simulation_step (initState data) ChannelResult.lost).expected_frame_ack = 0) := by
  constructor
  · intro st ch h
    exact (step_next_of_can_send st ch h).1
  · intro data hd
    have hc : can_send_new_frame (initState data) = true := by
      refine (can_send_iff _).mpr ⟨?_, ?_⟩
      · show 0 < data.length
        exact List.length_pos.mpr hd
      · show (0 : Nat) < 0 + 3
        omega
    constructor
    · rw [(step_next_of_can_send _ ChannelResult.lost hc).1]
      rfl
    · unfold next_simulation_step
      rw [if_pos hc]
      rfl

theorem c5_fire_and_forget_witness :
    (next_simulation_step (initState [65]) ChannelResult.lost).next_frame_to_send = 1 ∧
    (next_simulation_step (initState [65]) ChannelResult.lost).expected_frame_ack = 0 :=
  c5_fire_and_forget.2 [65] (by decide)

/-- Claim C6: receiving a sequence number strictly above the expected one
stores the payload under that key, overwriting any existing entry, leaves
next_frame_to_deliver and all other buffer entries unchanged, and returns
the acknowledgment next_frame_to_deliver - 1 when next_frame_to_deliver is
positive and no acknowledgment otherwise. -/
theorem c6_out_of_order_buffering (st : RecvState) (seq : Nat) (d : List Nat)
    (h : st.next_frame_to_deliver < seq) :
    (process_received_frame st (some seq) d).1.next_frame_to_deliver
        = st.next_frame_to_deliver ∧
    lookupFrame seq (process_received_frame st (some seq) d).1.received_frames
        = some d ∧
    (∀ k, k ≠ seq →
      lookupFrame k (process_received_frame st (some seq) d).1.received_frames
        = lookupFrame k st.received_frames) ∧
    (process_received_frame st (some seq) d).2
        = if 0 < st.next_frame_to_deliver then some (st.next_frame_to_deliver - 1)
          else none := by
  have hp : process_received_frame st (some seq) d
      = (⟨st.next_frame_to_deliver, insertFrame seq d st.received_frames⟩,
        if 0 < st.next_frame_to_deliver then some (st.next_frame_to_deliver - 1)
        else none) := by
    unfold process_received_frame
    dsimp only
    rw [if_neg (show ¬ seq = st.next_frame_to_deliver by omega), if_pos h]
  rw [hp]
  dsimp only
  exact ⟨rfl, lookupFrame_insert_self _ _ _,
    fun k hk => lookupFrame_insert_ne k seq d _ hk, rfl⟩

theorem c6_out_of_order_buffering_witness :
    lookupFrame 3 (process_received_frame ⟨1, [(3, [66])]⟩ (some 3) [65]).1.received_frames
        = some [65] ∧
    (process_received_frame ⟨1, [(3, [66])]⟩ (some 3) [65]).1.next_frame_to_deliver = 1 ∧
    (process_received_frame ⟨1, [(3, [66])]⟩ (some 3) [65]).2 = some 0 := by
  have h := c6_out_of_order_buffering ⟨1, [(3, [66])]⟩ 3 [65] (by decide)
  exact ⟨h.2.1, h.1, by simpa using h.2.2.2⟩

/-- Claim C7: a None sequence number makes process_received_frame return no
acknowledgment with the receiver state untouched, and the step driver
leaves the receiver state untouched when the channel loses the frame or
when the delivered bit string unframes as corrupted. -/
theorem c7_corrupted_frame_atomicity :
    (∀ (st : RecvState) (d : List Nat), process_received_frame st none d = (st, none)) ∧
    (∀ st : SimState,
      (next_simulation_step st ChannelResult.lost).receiver = st.receiver) ∧
    (∀ (st : SimState) (rcv : List Bool) (a : Option Nat) (b : Option (List Nat)),
      unframe_data defaultPolynomial rcv = some (a, b, true) →
      (next_simulation_step st (ChannelResult.delivered rcv)).receiver = st.receiver) := by
  refine ⟨fun st d => rfl, ?_, ?_⟩
  · intro st
    by_cases hc : can_send_new_frame st = true
    · unfold next_simulation_step
      rw [if_pos hc]
    · rw [step_of_cannot_send st ChannelResult.lost hc]
  · intro st rcv a b h
    have hra : receive_and_ack st rcv = st := by
      unfold receive_and_ack
      rw [h]
      rfl
    by_cases hc : can_send_new_frame st = true
    · unfold next_simulation_step
      rw [if_pos hc]
      show (receive_and_ack st rcv).receiver = st.receiver
      rw [hra]
    · rw [step_of_cannot_send st (ChannelResult.delivered rcv) hc]

theorem c7_corrupted_frame_atomicity_witness :
    (next_simulation_step (initState [65]) (ChannelResult.delivered [])).receiver
      = (initState [65]).receiver :=
  c7_corrupted_frame_atomicity.2.2 (initState [65]) [] none none (by decide)

/-- Claim C8, counterexample: calling generate_crc on the empty bit string
with the fixed generator does not fail at all; it returns the all-zero
check string, so no InvalidInputError behaviour exists in the code, which
defines no error class and has no raise statement. -/
theorem c8_empty_input_counterexample :
    generate_crc [] defaultPolynomial = [false, false, false] := by decide

/-- Claim C8, amended: generate_crc on empty data does not crash and
returns the all-zero check string of length one less than the generator,
for every generator pattern. -/
theorem c8_empty_input_amended (generator : List Bool) :
    generate_crc [] generator
      = List.replicate (generator.length - 1) false := by
  simp [generate_crc, runDivision]

/-- Claim C9, counterexample: the frame 001011 passes the length and check
guards and its payload slice is the single bit 1, not a multiple of eight;
unframe_data does not drop that partial unit but decodes it as the extra
character of code point 1, so the claimed truncation to complete eight-bit
units, which would return an empty payload here, does not happen. -/
theorem c9_partial_unit_counterexample :
    unframe_data defaultPolynomial
        ([false, false, true] ++ generate_crc [false, false, true] defaultPolynomial)
      ≠ some (some 0, some [], false) ∧
    unframe_data defaultPolynomial
        ([false, false, true] ++ generate_crc [false, false, true] defaultPolynomial)
      = some (some 0, some [1], false) := by
  constructor <;> decide

/-- Claim C9, amended: for a frame that passes the length and check guards
and whose payload bit count is not a multiple of eight, unframe_data keeps
the trailing partial unit: the decoded payload has one character more than
the number of complete eight-bit units, and its last character is the value
of the trailing partial bits. -/
theorem c9_partial_unit_amended (frame : List Bool)
    (h1 : ¬ frame.length < defaultPolynomial.length + 1)
    (h2 : check_crc frame defaultPolynomial = some true)
    (h3 : (frame.length - 5) % 8 ≠ 0) :
    unframe_data defaultPolynomial frame
      = some (some (bitsToNat (frame.take 2)),
          some ((chunkBytes ((frame.drop 2).take (frame.length - 5))).map bitsToNat),
          false) ∧
    ((chunkBytes ((frame.drop 2).take (frame.length - 5))).map bitsToNat).length
      = (frame.length - 5) / 8 + 1 ∧
    ((chunkBytes ((frame.drop 2).take (frame.length - 5))).map bitsToNat).getLast?
      = some (bitsToNat (((frame.drop 2).take (frame.length - 5)).drop
          (8 * ((frame.length - 5) / 8)))) := by
  have h5 : 5 ≤ frame.length := by
    have h45 : defaultPolynomial.length + 1 = 5 := rfl
    omega
  have hdb : frame.length - (defaultPolynomial.length - 1) - 2 = frame.length - 5 := by
    show frame.length - (4 - 1) - 2 = frame.length - 5
    omega
  have hdbl : ((frame.drop 2).take (frame.length - 5)).length = frame.length - 5 := by
    simp only [List.length_take, List.length_drop]
    omega
  refine ⟨?_, ?_, ?_⟩
  · unfold unframe_data
    rw [if_neg h1, h2]
    simp only [Bool.not_true, Bool.false_eq_true, if_false, hdb]
  · rw [List.length_map, chunkBytes_length, hdbl]
    omega
  · rw [List.getLast?_map, chunkBytes_getLast_partial _ (by rw [hdbl]; exact h3), hdbl]
    rfl

theorem c9_partial_unit_amended_witness :
    unframe_data defaultPolynomial [false, false, true, false, true, true]
      = some (some (bitsToNat ([false, false, true, false, true, true].take 2)),
          some ((chunkBytes (([false, false, true, false, true, true].drop 2).take
              ([false, false, true, false, true, true].length - 5))).map bitsToNat),
          false) ∧
    ((chunkBytes (([false, false, true, false, true, true].drop 2).take
        ([false, false, true, false, true, true].length - 5))).map bitsToNat).length
      = ([false, false, true, false, true, true].length - 5) / 8 + 1 ∧
    ((chunkBytes (([false, false, true, false, true, true].drop 2).take
        ([false, false, true, false, true, true].length - 5))).map bitsToNat).getLast?
      = some (bitsToNat ((([false, false, true, false, true, true].drop 2).take
          ([false, false, true, false, true, true].length - 5)).drop
          (8 * (([false, false, true, false, true, true].length - 5) / 8)))) :=
  c9_partial_unit_amended [false, false, true, false, true, true]
    (by decide) (by decide) (by decide)

/-- Claim C10: the two-bit sequence field wraps on encode, so framing with
any sequence number s produces the same frame as framing with s mod 4, and
unframing such a frame over the eight-bit alphabet returns s mod 4. -/
theorem c10_sequence_wraparound (s : Nat) :
    (∀ (polynomial : List Bool) (data : List Nat),
      frame_data polynomial data s = frame_data polynomial data (s % 4)) ∧
    (∀ data : List Nat, (∀ c ∈ data, c < 256) →
      unframe_data defaultPolynomial (frame_data defaultPolynomial data s)
        = some (some (s % 4), some data, false)) := by
  constructor
  · intro polynomial data
    unfold frame_data
    have h : s % 4 % 4 = s % 4 := by omega
    rw [h]
  · intro data h2
    exact frame_unframe_aux data h2 s

theorem c10_sequence_wraparound_witness :
    unframe_data defaultPolynomial (frame_data defaultPolynomial [65] 7)
      = some (some 3, some [65], false) := by
  have h := (c10_sequence_wraparound 7).2 [65] (by decide)
  simpa using h

end Datalink
